import Mathlib

/-!
Verification development for the pagination and reading-position engine of a
mobile reading application.  The definitions below are shallow embeddings of
the TypeScript source: strings are `List Char`, JavaScript numbers holding
character offsets are `Int`/`Nat`, and the floating-point quantities of the
viewport page-size calculator are modelled with exact rationals (`ℚ`).
-/

/-- The JavaScript whitespace class (`\s`, and also the set stripped by
`String.prototype.trim`): ASCII whitespace, NBSP, Ogham space mark, the
U+2000..U+200A spaces, line/paragraph separators, narrow/medium spaces,
ideographic space, and BOM. -/
def jsIsSpace (c : Char) : Bool :=
  decide (c = ' ' ∨ c = '\t' ∨ c = '\n' ∨ c = '\r' ∨ c = '\x0b' ∨ c = '\x0c' ∨
    c = ' ' ∨ c = ' ' ∨ (' ' ≤ c ∧ c ≤ ' ') ∨
    c = ' ' ∨ c = ' ' ∨ c = ' ' ∨ c = ' ' ∨ c = '　' ∨
    c = '﻿')

/-- JavaScript `String.prototype.trim`: drop whitespace from both ends. -/
def jsTrim (s : List Char) : List Char :=
  ((s.dropWhile jsIsSpace).reverse.dropWhile jsIsSpace).reverse

/-- The CJK character class used throughout `textUtils.ts`:
`[㐀-䶿一-鿿豈-﫿]`. -/
def isCJK (c : Char) : Bool :=
  decide (('㐀' ≤ c ∧ c ≤ '䶿') ∨ ('一' ≤ c ∧ c ≤ '鿿') ∨
    ('豈' ≤ c ∧ c ≤ '﫿'))

inductive Lang
  | english
  | chinese
  | mixed
deriving DecidableEq, Repr

/-- `detectPrimaryLanguage` (textUtils.ts).  In JavaScript, empty text gives
`0/0 = NaN`, which fails both threshold comparisons and falls through to
`'mixed'`; the `total = 0` branch reproduces that. -/
def detectPrimaryLanguage (text : List Char) : Lang :=
  let totalChars := text.length
  let chineseChars := (text.filter isCJK).length
  if totalChars = 0 then Lang.mixed
  else
    let chineseRatio : ℚ := (chineseChars : ℚ) / (totalChars : ℚ)
    if chineseRatio > 6/10 then Lang.chinese
    else if chineseRatio < 1/10 then Lang.english
    else Lang.mixed

/-! ### Paragraph splitting

`segmentTextForPagination` splits the cleaned text with the regular
expression `/\n\s*\n|\r\n\s*\r\n/`.  `sepMatch` computes the length of the
(leftmost-alternative, greedy) match of that expression anchored at the head
of the list, and `splitGo` performs the JavaScript `split` scan. -/

/-- Index of the last `'\n'` in a list (used for the greedy `\n\s*\n`
alternative: the backtracking `\s*` yields the farthest `'\n'` inside the
whitespace run). -/
def lastIdxNl : List Char → Option Nat
  | [] => none
  | c :: t =>
    match lastIdxNl t with
    | some k => some (k + 1)
    | none => if c = '\n' then some 0 else none

/-- Index of the last `'\r','\n'` pair in a list (greedy `\r\n\s*\r\n`
alternative). -/
def lastIdxCrLf : List Char → Option Nat
  | [] => none
  | [_] => none
  | c :: d :: t =>
    match lastIdxCrLf (d :: t) with
    | some k => some (k + 1)
    | none => if c = '\r' ∧ d = '\n' then some 0 else none

/-- Length of the match of `/\n\s*\n|\r\n\s*\r\n/` anchored at the head of
the list (`none` when the expression does not match here).  The first
alternative is preferred, as in JavaScript ordered alternation. -/
def sepMatch : List Char → Option Nat
  | '\n' :: t => (lastIdxNl (t.takeWhile jsIsSpace)).map (fun k => k + 2)
  | '\r' :: '\n' :: t => (lastIdxCrLf (t.takeWhile jsIsSpace)).map (fun k => k + 4)
  | _ => none

/-- The `String.prototype.split(regex)` scan: advance character by character,
emitting a piece whenever the separator matches at the current position.
`skip` counts separator characters still to be consumed; `cur` is the piece
being accumulated (reversed). -/
def splitGo (skip : Nat) (cur : List Char) : List Char → List (List Char)
  | [] => [cur.reverse]
  | c :: t =>
    match skip with
    | n + 1 => splitGo n cur t
    | 0 =>
      match sepMatch (c :: t) with
      | some n => cur.reverse :: splitGo (n - 1) [] t
      | none => splitGo 0 (c :: cur) t

/-- `cleanText.split(/\n\s*\n|\r\n\s*\r\n/)` from `segmentTextForPagination`. -/
def splitParas (s : List Char) : List (List Char) := splitGo 0 [] s

/-! ### Breaking long paragraphs (`breakLongParagraph`, textUtils.ts) -/

/-- The punctuation classes `[。！？；：，、]` and `[.!?;:,]` of
`breakLongParagraph`, combined (the source tests both). -/
def isBreakPunct (c : Char) : Bool :=
  decide (c = '。' ∨ c = '！' ∨ c = '？' ∨ c = '；' ∨ c = '：' ∨ c = '，' ∨
    c = '、' ∨ c = '.' ∨ c = '!' ∨ c = '?' ∨ c = ';' ∨ c = ':' ∨ c = ',')

/-- Index of the last break punctuation in a list.  The source's look-ahead
loop keeps overwriting `breakPoint`, so the punctuation mark chosen is the
last one inside the window. -/
def lastPunctIdx : List Char → Option Nat
  | [] => none
  | c :: t =>
    match lastPunctIdx t with
    | some k => some (k + 1)
    | none => if isBreakPunct c then some 0 else none

/-- The character-by-character loop of `breakLongParagraph`.  `skip` counts
look-ahead characters already emitted into the previous segment (the source
sets `i = breakPoint + 1` and `continue`s).  The `0.8` threshold
`current.length >= maxChars * 0.8` is modelled exactly as
`4 * maxChars ≤ 5 * current.length` (for the integer lengths involved the
IEEE-754 comparison agrees with the exact rational one).  The look-ahead
window `j ∈ (i, min(len, i + (maxChars - current.length)))` is the first
`maxChars - current.length - 1` characters after the current one; JavaScript's
negative bound and `Nat` truncated subtraction both yield an empty window. -/
def blpGo (maxChars : Nat) : Nat → List Char → List Char → List (List Char)
  | _, current, [] => if 0 < (jsTrim current).length then [jsTrim current] else []
  | skip + 1, current, _ :: rest => blpGo maxChars skip current rest
  | 0, current, c :: rest =>
    let current1 := current ++ [c]
    if 4 * maxChars ≤ 5 * current1.length then
      match lastPunctIdx (rest.take (maxChars - current1.length - 1)) with
      | some k =>
        jsTrim (current1 ++ rest.take (k + 1)) :: blpGo maxChars (k + 1) [] rest
      | none =>
        if maxChars ≤ current1.length then jsTrim current1 :: blpGo maxChars 0 [] rest
        else blpGo maxChars 0 current1 rest
    else
      if maxChars ≤ current1.length then jsTrim current1 :: blpGo maxChars 0 [] rest
      else blpGo maxChars 0 current1 rest

/-- `breakLongParagraph` (textUtils.ts). -/
def breakLongParagraph (paragraph : List Char) (maxChars : Nat) : List (List Char) :=
  blpGo maxChars 0 [] paragraph

/-! ### Paragraph accumulation (`segmentTextForPagination`, textUtils.ts) -/

/-- The paragraph-accumulation loop of `segmentTextForPagination`. -/
def segLoop (maxCharsPerPage : Nat) :
    List (List Char) → List Char → List (List Char) → List (List Char)
  | [], currentSegment, segments =>
    if 0 < currentSegment.length then segments ++ [currentSegment] else segments
  | paragraph :: rest, currentSegment, segments =>
    let trimmedParagraph := jsTrim paragraph
    if trimmedParagraph.length = 0 then segLoop maxCharsPerPage rest currentSegment segments
    else
      let potentialSegment :=
        currentSegment ++ (if currentSegment.length = 0 then [] else ['\n', '\n']) ++
          trimmedParagraph
      if potentialSegment.length ≤ maxCharsPerPage then
        segLoop maxCharsPerPage rest potentialSegment segments
      else
        let segments1 :=
          if 0 < currentSegment.length then segments ++ [currentSegment] else segments
        if maxCharsPerPage < trimmedParagraph.length then
          segLoop maxCharsPerPage rest []
            (segments1 ++ breakLongParagraph trimmedParagraph maxCharsPerPage)
        else
          segLoop maxCharsPerPage rest trimmedParagraph segments1

/-- `segmentTextForPagination` (textUtils.ts). -/
def segmentTextForPagination (text : List Char) (maxCharsPerPage : Nat) :
    List (List Char) :=
  if (jsTrim text).length = 0 then [[]]
  else
    let cleanText := jsTrim text
    let paragraphs := splitParas cleanText
    let segments := segLoop maxCharsPerPage paragraphs [] []
    if segments.length = 0 then [[]] else segments

/-! ### Page construction (`FileParser.createPages`, fileParser.ts, and
`createPagesFromContent`, repagination.ts) -/

structure BookPage where
  pageNumber : Nat
  content : List Char
  startPosition : Int
  endPosition : Int
deriving DecidableEq, Repr

/-- The page-assembly loop shared by `FileParser.createPages` and
`createPagesFromContent`: walk the segments accumulating `currentPosition`,
with `startPosition = currentPosition` and
`endPosition = currentPosition + segment.length - 1` (inclusive end). -/
def pagesGo : Nat → Int → List (List Char) → List BookPage
  | _, _, [] => []
  | i, pos, seg :: rest =>
    { pageNumber := i + 1, content := seg, startPosition := pos,
      endPosition := pos + seg.length - 1 } :: pagesGo (i + 1) (pos + seg.length) rest

/-- `FileParser.createPages` (fileParser.ts) with the page-size budget passed
explicitly: the source computes `maxCharsPerPage` by calling
`getResponsivePageSize(cleanContent, fontSize)` (a viewport-dependent
integer); `createPages` below supplies it.  The language detection and word
statistics computed in the source feed only `console.log` calls. -/
def createPagesWithBudget (content : List Char) (maxCharsPerPage : Nat) :
    List BookPage :=
  if (jsTrim content).length = 0 then
    [{ pageNumber := 1, content := "No content available".data,
       startPosition := 0, endPosition := 0 }]
  else
    let cleanContent := jsTrim content
    if cleanContent.length ≤ maxCharsPerPage then
      [{ pageNumber := 1, content := cleanContent, startPosition := 0,
         endPosition := (cleanContent.length : Int) - 1 }]
    else
      let segments := segmentTextForPagination cleanContent maxCharsPerPage
      let pages := pagesGo 0 0 segments
      if pages.length = 0 then
        [{ pageNumber := 1, content := cleanContent, startPosition := 0,
           endPosition := (cleanContent.length : Int) - 1 }]
      else pages

/-! ### Viewport page-size calculator (pageCalculator.ts) -/

/-- The runtime environment read by `calculateDynamicPageSize`:
`Dimensions.get('window')` and `Platform.OS`. -/
structure Viewport where
  screenWidth : ℚ
  screenHeight : ℚ
  isIOS : Bool

/-- `getCharacterWidth` (pageCalculator.ts). -/
def getCharacterWidth (isIOS : Bool) (fontSize : ℚ) (language : Lang) : ℚ :=
  let baseRatio : ℚ :=
    match language with
    | Lang.chinese => if isIOS then 11/10 else 1
    | Lang.mixed => if isIOS then 8/10 else 3/4
    | Lang.english => if isIOS then 13/20 else 3/5
  fontSize * baseRatio

/-- `applyLanguageAdjustments` (pageCalculator.ts). -/
def applyLanguageAdjustments (charsPerPage : Int) (language : Lang) : Int :=
  match language with
  | Lang.chinese => ⌊(charsPerPage : ℚ) * (85/100)⌋
  | Lang.mixed => ⌊(charsPerPage : ℚ) * (9/10)⌋
  | Lang.english => charsPerPage

structure PageSizeResult where
  charsPerPage : Int
  linesPerPage : Int
  charsPerLine : Int
  availableHeight : ℚ
  availableWidth : ℚ
  language : Lang

/-- `calculateDynamicPageSize` (pageCalculator.ts) on the parameter path used
by `getResponsivePageSize` (only `fontSize` supplied, every other parameter
defaulted).  Arithmetic is exact rational arithmetic standing for IEEE-754
doubles. -/
def calculateDynamicPageSize (vp : Viewport) (content : List Char)
    (fontSize : ℚ) : PageSizeResult :=
  let headerHeight : ℚ := 120
  let audioControlsHeight : ℚ := 80
  let padding : ℚ := 40
  let statusBarHeight : ℚ := 50
  let tabBarHeight : ℚ := 80
  let availableWidth := vp.screenWidth - padding
  let availableHeight := vp.screenHeight - headerHeight - audioControlsHeight -
    statusBarHeight - tabBarHeight - padding
  let language := detectPrimaryLanguage content
  let lineHeight := if vp.isIOS then fontSize * (8/5) else fontSize * (7/4)
  let charWidth := getCharacterWidth vp.isIOS fontSize language
  let linesPerPage : Int := ⌊availableHeight / lineHeight⌋
  let charsPerLine : Int := ⌊availableWidth / charWidth⌋
  let charsPerPage := linesPerPage * charsPerLine
  { charsPerPage := applyLanguageAdjustments charsPerPage language,
    linesPerPage := linesPerPage, charsPerLine := charsPerLine,
    availableHeight := availableHeight, availableWidth := availableWidth,
    language := language }

/-- `getResponsivePageSize` (pageCalculator.ts): clamp the computed budget to
`[200, 3000]`. -/
def getResponsivePageSize (vp : Viewport) (content : List Char)
    (fontSize : ℚ) : Int :=
  max 200 (min 3000 (calculateDynamicPageSize vp content fontSize).charsPerPage)

/-- `FileParser.createPages` (fileParser.ts) with its budget computed from the
viewport, as in the source. -/
def createPages (vp : Viewport) (content : List Char) (fontSize : ℚ) :
    List BookPage :=
  createPagesWithBudget content (getResponsivePageSize vp content fontSize).toNat

/-! ### Repagination (repagination.ts) -/

/-- `createPagesFromContent` (repagination.ts): same assembly loop, no
empty-content or short-content special case, with a single-page fallback when
no pages were produced. -/
def createPagesFromContent (content : List Char) (maxCharsPerPage : Nat) :
    List BookPage :=
  let segments := segmentTextForPagination content maxCharsPerPage
  let pages := pagesGo 0 0 segments
  if pages.length = 0 then
    [{ pageNumber := 1, content := content, startPosition := 0,
       endPosition := (content.length : Int) - 1 }]
  else pages

/-- The first loop of `findClosestPage`: the first page whose inclusive
`[startPosition, endPosition]` range contains the position. -/
def fcpScan (position : Int) : List BookPage → Option Nat
  | [] => none
  | page :: rest =>
    if page.startPosition ≤ position ∧ position ≤ page.endPosition then
      some page.pageNumber
    else fcpScan position rest

/-- The second loop of `findClosestPage`: nearest page by distance from the
position to each page's `startPosition`, strict improvement only, starting
from page 1 and the distance to `pages[0].startPosition`. -/
def fcpClosest (position : Int) : Nat → Int → List BookPage → Nat
  | best, _, [] => best
  | best, bestDist, page :: rest =>
    let d := |position - page.startPosition|
    if d < bestDist then fcpClosest position page.pageNumber d rest
    else fcpClosest position best bestDist rest

/-- `findClosestPage` (repagination.ts). -/
def findClosestPage (position : Int) (pages : List BookPage) : Nat :=
  match pages with
  | [] => 1
  | p0 :: rest =>
    match fcpScan position (p0 :: rest) with
    | some n => n
    | none => fcpClosest position 1 |position - p0.startPosition| rest

structure Chapter where
  id : List Char
  title : List Char
  startPage : Nat
  endPage : Option Nat
  startPosition : Int
deriving DecidableEq, Repr

/-- The `Book` record (types/index.ts), restricted to the fields the engine
reads and writes. -/
structure Book where
  id : List Char
  title : List Char
  content : List Char
  pages : List BookPage
  chapters : List Chapter
  currentPosition : Int
  currentPage : Nat
  totalLength : Int
  totalPages : Nat
deriving DecidableEq, Repr

/-- `repaginateBook` (repagination.ts): rebuild pages with the budget derived
from the new font size, remap the current page through `findClosestPage`, and
return the book with only `pages`, `totalPages` and `currentPage` replaced. -/
def repaginateBook (vp : Viewport) (book : Book) (newFontSize : ℚ) : Book :=
  if (jsTrim book.content).length = 0 then book
  else
    let newMaxCharsPerPage := (getResponsivePageSize vp book.content newFontSize).toNat
    let newPages := createPagesFromContent book.content newMaxCharsPerPage
    let newCurrentPage := findClosestPage book.currentPosition newPages
    { book with
      pages := newPages
      totalPages := newPages.length
      currentPage := newCurrentPage }

/-! ### Chapter detection (chapterUtils.ts)

`detectChapters` tests each trimmed line against five regular expressions
(all with the `g`, `m`, `i` flags, `lastIndex` reset before each `exec`).
The matchers below implement those expressions directly.  Because the
patterns are prefix-shaped (every quantified class is disjoint from what
follows it), greedy matching needs no backtracking except in
`\s+(.+)$`, which is handled explicitly.  With the `m` flag, `^` anchors at
the start of the string or after any line terminator, and `(.*)`/`(.+)`/`.`
stop at line terminators, where `$` then succeeds. -/

/-- JavaScript line terminators (`LF`, `CR`, `LS`, `PS`). -/
def isLineTerm (c : Char) : Bool :=
  decide (c = '\n' ∨ c = '\r' ∨ c = ' ' ∨ c = ' ')

/-- ASCII lower-casing, the only case folding the patterns need under `/i`. -/
def lowerChar (c : Char) : Char :=
  if 'A' ≤ c ∧ c ≤ 'Z' then Char.ofNat (c.toNat + 32) else c

/-- Strip a case-insensitive literal pattern prefix, returning the rest. -/
def stripCi : List Char → List Char → Option (List Char)
  | [], s => some s
  | _ :: _, [] => none
  | p :: ps, c :: cs => if lowerChar c = lowerChar p then stripCi ps cs else none

def isDigitCh (c : Char) : Bool := decide ('0' ≤ c ∧ c ≤ '9')

/-- `[IVXLCDM]` under the `i` flag. -/
def isRomanCi (c : Char) : Bool :=
  decide (lowerChar c = 'i' ∨ lowerChar c = 'v' ∨ lowerChar c = 'x' ∨
    lowerChar c = 'l' ∨ lowerChar c = 'c' ∨ lowerChar c = 'd' ∨ lowerChar c = 'm')

/-- `[一二三四五六七八九十百千万\d]`. -/
def isHanDigit (c : Char) : Bool :=
  decide (c = '一' ∨ c = '二' ∨ c = '三' ∨ c = '四' ∨ c = '五' ∨ c = '六' ∨
    c = '七' ∨ c = '八' ∨ c = '九' ∨ c = '十' ∨ c = '百' ∨ c = '千' ∨
    c = '万') || isDigitCh c

/-- The tail `[seps\s]?\s*(.*)$` shared by the chapter patterns: optionally
consume one separator or whitespace character, greedily consume whitespace,
and capture up to the next line terminator (where the multiline `$`
matches). -/
def tailCapture (seps : List Char) (r : List Char) : List Char :=
  let r1 := match r with
    | c :: t => if c ∈ seps ∨ jsIsSpace c then t else r
    | [] => []
  (r1.dropWhile jsIsSpace).takeWhile (fun c => !(isLineTerm c))

/-- `^Chapter\s+(\d+|[IVXLCDM]+)[:\.\s]?\s*(.*)$` (anchored at the head),
returning the two capture groups. -/
def matchChapterEn (line : List Char) : Option (List Char × List Char) :=
  match stripCi "chapter".data line with
  | none => none
  | some r1 =>
    let ws := r1.takeWhile jsIsSpace
    if ws.length = 0 then none
    else
      let r2 := r1.drop ws.length
      let ds := r2.takeWhile isDigitCh
      if 0 < ds.length then some (ds, tailCapture [':', '.'] (r2.drop ds.length))
      else
        let rs := r2.takeWhile isRomanCi
        if 0 < rs.length then some (rs, tailCapture [':', '.'] (r2.drop rs.length))
        else none

/-- `^第\s*([一二三四五六七八九十百千万\d]+)\s*章[：\.\s]?\s*(.*)$` — and the
same with `节` — anchored at the head. -/
def matchChapterZh (marker : Char) (line : List Char) :
    Option (List Char × List Char) :=
  match line with
  | [] => none
  | c :: t =>
    if c = '第' then
      let t1 := t.dropWhile jsIsSpace
      let g1 := t1.takeWhile isHanDigit
      if g1.length = 0 then none
      else
        let t2 := (t1.drop g1.length).dropWhile jsIsSpace
        match t2 with
        | [] => none
        | m :: t3 => if m = marker then some (g1, tailCapture ['：', '.'] t3) else none
    else none

/-- Index of the last non-line-terminator character (for the backtracking
step of `\s+(.+)$` when everything after the whitespace run is gone). -/
def lastNonTermIdx : List Char → Option Nat
  | [] => none
  | c :: t =>
    match lastNonTermIdx t with
    | some k => some (k + 1)
    | none => if isLineTerm c then none else some 0

/-- `\s+(.+)$` anchored at the head: a nonempty greedy whitespace run, then a
nonempty capture running to the next line terminator.  When nothing follows
the whitespace run, the greedy `\s+` backtracks to the last non-terminator
whitespace character, which then heads the capture. -/
def dotWsCapture (t : List Char) : Option (List Char) :=
  let w := t.takeWhile jsIsSpace
  if w.length = 0 then none
  else
    let r := t.drop w.length
    if 0 < r.length then some (r.takeWhile (fun c => !(isLineTerm c)))
    else
      match lastNonTermIdx w with
      | some j =>
        if 1 ≤ j then some ((w.drop j).takeWhile (fun c => !(isLineTerm c)))
        else none
      | none => none

/-- `^\d+\.\s+(.+)$` anchored at the head. -/
def matchNumbered (line : List Char) : Option (List Char) :=
  let ds := line.takeWhile isDigitCh
  if ds.length = 0 then none
  else
    match line.drop ds.length with
    | '.' :: t => dotWsCapture t
    | _ => none

/-- `^[IVXLCDM]+\.\s+(.+)$` (with `i`) anchored at the head. -/
def matchRomanHeading (line : List Char) : Option (List Char) :=
  let rs := line.takeWhile isRomanCi
  if rs.length = 0 then none
  else
    match line.drop rs.length with
    | '.' :: t => dotWsCapture t
    | _ => none

/-- All suffixes of the string at which a multiline `^` can anchor: the start
of the string and the position after every line terminator. -/
def lineStartsAux : List Char → List (List Char)
  | [] => []
  | c :: t => (if isLineTerm c then [t] else []) ++ lineStartsAux t

def lineStarts (s : List Char) : List (List Char) := s :: lineStartsAux s

/-- Run an anchored matcher at each `^` position in order and keep the first
(leftmost) match — the behaviour of `exec` on a `^`-anchored multiline
pattern. -/
def execAnchored {α : Type} (m : List Char → Option α) : List (List Char) → Option α
  | [] => none
  | s :: rest =>
    match m s with
    | some x => some x
    | none => execAnchored m rest

def execPattern {α : Type} (m : List Char → Option α) (line : List Char) : Option α :=
  execAnchored m (lineStarts line)

/-- The per-line pattern loop of `detectChapters`: patterns are tried in
order, the first match wins, and the raw title is `match[2] || match[1]`
(the two-group patterns fall back to group 1 when group 2 is the empty
string; the one-group patterns have no `match[2]`). -/
def chapterLineTitleRaw (line : List Char) : Option (List Char) :=
  match execPattern matchChapterEn line with
  | some (g1, g2) => some (if g2.length = 0 then g1 else g2)
  | none =>
    match execPattern (matchChapterZh '章') line with
    | some (g1, g2) => some (if g2.length = 0 then g1 else g2)
    | none =>
      match execPattern (matchChapterZh '节') line with
      | some (g1, g2) => some (if g2.length = 0 then g1 else g2)
      | none =>
        match execPattern matchNumbered line with
        | some g1 => some g1
        | none =>
          match execPattern matchRomanHeading line with
          | some g1 => some g1
          | none => none

/-- `content.split('\n')`. -/
def splitLines : List Char → List (List Char)
  | [] => [[]]
  | c :: t =>
    if c = '\n' then [] :: splitLines t
    else
      match splitLines t with
      | l :: ls => (c :: l) :: ls
      | [] => [[c]]

/-- `content.indexOf(line)`: first index of the needle, `-1` when absent. -/
def indexOfSub (needle : List Char) : List Char → Int
  | [] => if needle.length = 0 then 0 else -1
  | c :: t =>
    if needle.isPrefixOf (c :: t) then 0
    else
      let r := indexOfSub needle t
      if r < 0 then -1 else r + 1

/-- `findPageForPosition` (chapterUtils.ts): first page whose inclusive
range contains the position, defaulting to page 1. -/
def findPageForPosition (position : Int) : List BookPage → Nat
  | [] => 1
  | page :: rest =>
    if page.startPosition ≤ position ∧ position ≤ page.endPosition then
      page.pageNumber
    else findPageForPosition position rest

def natDigits (n : Nat) : List Char := (Nat.repr n).data

/-- The line scan of `detectChapters`: empty (trimmed) lines are skipped,
matched lines produce a chapter whose offset is the first occurrence of the
trimmed line in the content and whose page is resolved by
`findPageForPosition`.  An all-whitespace title falls back to
`Chapter <count>`. -/
def detectChaptersGo (content : List Char) (pages : List BookPage) :
    Nat → List (List Char) → List Chapter
  | _, [] => []
  | chapterCount, rawLine :: rest =>
    let line := jsTrim rawLine
    if line.length = 0 then detectChaptersGo content pages chapterCount rest
    else
      match chapterLineTitleRaw line with
      | some rawTitle =>
        let newCount := chapterCount + 1
        let chapterTitle :=
          if (jsTrim rawTitle).length = 0 then "Chapter ".data ++ natDigits newCount
          else jsTrim rawTitle
        let linePosition := indexOfSub line content
        let startPage := findPageForPosition linePosition pages
        { id := "chapter-".data ++ natDigits newCount
          title := chapterTitle
          startPage := startPage
          endPage := none
          startPosition := linePosition } :: detectChaptersGo content pages newCount rest
      | none => detectChaptersGo content pages chapterCount rest

/-- The end-page back-fill loop of `detectChapters`: every chapter but the
last ends one page before its successor starts; the last chapter ends at
`pages.length`. -/
def setEndPages (lastPage : Nat) : List Chapter → List Chapter
  | [] => []
  | [ch] => [{ ch with endPage := some lastPage }]
  | ch :: next :: rest =>
    { ch with endPage := some (next.startPage - 1) } :: setEndPages lastPage (next :: rest)

/-- `detectChapters` (chapterUtils.ts). -/
def detectChapters (content : List Char) (pages : List BookPage) : List Chapter :=
  let lines := splitLines content
  let found := detectChaptersGo content pages 0 lines
  let chapters :=
    if found.length = 0 then
      [{ id := "chapter-1".data
         title := "Chapter 1".data
         startPage := 1
         endPage := none
         startPosition := 0 }]
    else found
  setEndPages pages.length chapters

/-! ### The narration progress tracker (ReaderScreen.tsx,
`startTtsProgressTracking`) -/

/-- One 100 ms tick of the TTS progress tracker.  `candidate` is the raw
progress computed from elapsed time
(`startProgress + progressThroughRemainingText * remainingProgressRange`);
the source then clamps it with
`newProgress = Math.min(1.0, Math.max(lastTtsProgressRef.current, newProgress))`
and commits only on strict forward movement
(`if (newProgress > lastTtsProgressRef.current)`), discarding (and logging)
any tick that does not move forward. -/
def ttsTick (lastProgress candidate : ℚ) : ℚ :=
  let newProgress := min 1 (max lastProgress candidate)
  if lastProgress < newProgress then newProgress else lastProgress

/-! ### Spec-side predicates

These definitions follow the specification's wording (not the source); they
are compared against the source-derived functions above. -/

/-- Spec wording for adjacency under the half-open convention:
`page[i].end == page[i+1].start`. -/
def specAdjacent : List BookPage → Bool
  | [] => true
  | [_] => true
  | p :: q :: rest => (q.startPosition == p.endPosition) && specAdjacent (q :: rest)

/-- Spec wording of the pagination-coverage invariant: pages are nonempty,
`pages[0].start == 0`, `pages[i].end == pages[i+1].start`, and
`pages[last].end == len(Content)`. -/
def specPartitionExactly (content : List Char) (pages : List BookPage) : Bool :=
  match pages with
  | [] => false
  | p :: _ =>
    (p.startPosition == 0) && specAdjacent pages &&
      (match pages.getLast? with
       | some q => q.endPosition == (content.length : Int)
       | none => false)

/-- Index of the first break punctuation in a list — the "nearest
sentence-ending punctuation" reading of the specification. -/
def firstPunctIdx : List Char → Option Nat
  | [] => none
  | c :: t =>
    if isBreakPunct c then some 0 else (firstPunctIdx t).map (fun k => k + 1)

/-- Modelled from the spec: `breakLongParagraph` as the specification words
it, identical to `blpGo` except that the look-ahead picks the nearest
(first) punctuation in the window instead of the farthest. -/
def specBlpGo (maxChars : Nat) : Nat → List Char → List Char → List (List Char)
  | _, current, [] => if 0 < (jsTrim current).length then [jsTrim current] else []
  | skip + 1, current, _ :: rest => specBlpGo maxChars skip current rest
  | 0, current, c :: rest =>
    let current1 := current ++ [c]
    if 4 * maxChars ≤ 5 * current1.length then
      match firstPunctIdx (rest.take (maxChars - current1.length - 1)) with
      | some k =>
        jsTrim (current1 ++ rest.take (k + 1)) :: specBlpGo maxChars (k + 1) [] rest
      | none =>
        if maxChars ≤ current1.length then
          jsTrim current1 :: specBlpGo maxChars 0 [] rest
        else specBlpGo maxChars 0 current1 rest
    else
      if maxChars ≤ current1.length then jsTrim current1 :: specBlpGo maxChars 0 [] rest
      else specBlpGo maxChars 0 current1 rest

/-- Modelled from the spec: "scan forward from ~80% of budget looking for the
nearest sentence-ending punctuation within the remaining allowance". -/
def specBreakLongParagraph (paragraph : List Char) (maxChars : Nat) :
    List (List Char) :=
  specBlpGo maxChars 0 [] paragraph

/-- Contiguity of the produced pages under the source's inclusive-end
convention: each page starts one character after the previous page ends. -/
def inclAdjacent : List BookPage → Bool
  | [] => true
  | [_] => true
  | p :: q :: rest => (q.startPosition == p.endPosition + 1) && inclAdjacent (q :: rest)

/-- Total length of the text carried by a list of segments. -/
def sumLen (segs : List (List Char)) : Int :=
  (segs.map (fun s => (s.length : Int))).sum

/-- Amended coverage checker: pages are nonempty, start at offset `0`, are
contiguous with inclusive ends, and the last page ends at
(total emitted text length) − 1. -/
def pagesContiguousIncl (pages : List BookPage) : Bool :=
  match pages with
  | [] => false
  | p :: _ =>
    (p.startPosition == 0) && inclAdjacent pages &&
      (match pages.getLast? with
       | some q =>
         q.endPosition + 1 == (pages.map (fun r => (r.content.length : Int))).sum
       | none => false)

/-! ### Theorems -/

/-- C6: for every input content that is empty or whitespace-only, pagination
produces exactly one page whose content is the placeholder
`"No content available"` and whose character range `[0, 0]` is zero-length
(`endPosition - startPosition = 0`). -/
theorem c6_empty_placeholder (content : List Char) (B : Nat)
    (h : (jsTrim content).length = 0) :
    createPagesWithBudget content B =
      [{ pageNumber := 1, content := "No content available".data,
         startPosition := 0, endPosition := 0 }] := by
  simp [createPagesWithBudget, h]

theorem c6_witness :
    (jsTrim "  \n ".data).length = 0 ∧
      createPagesWithBudget "  \n ".data 500 =
        [{ pageNumber := 1, content := "No content available".data,
           startPosition := 0, endPosition := 0 }] :=
  ⟨by decide, c6_empty_placeholder "  \n ".data 500 (by decide)⟩

/-- C10: `findPageForPosition` returns the page number of a page whose
inclusive `[startPosition, endPosition]` range contains the offset whenever
such a page exists, and returns `1` whenever no page's range contains it —
so a detected chapter's `startPage` is always `1` or an existing page
number. -/
theorem c10_page_resolution (position : Int) (pages : List BookPage) :
    (∃ p ∈ pages, findPageForPosition position pages = p.pageNumber ∧
      p.startPosition ≤ position ∧ position ≤ p.endPosition) ∨
    ((∀ p ∈ pages, ¬(p.startPosition ≤ position ∧ position ≤ p.endPosition)) ∧
      findPageForPosition position pages = 1) := by
  induction pages with
  | nil => exact Or.inr ⟨by simp, rfl⟩
  | cons page rest ih =>
    by_cases h : page.startPosition ≤ position ∧ position ≤ page.endPosition
    · exact Or.inl ⟨page, by simp, by simp [findPageForPosition, h], h⟩
    · rcases ih with ⟨p, hp, hfind, hcont⟩ | ⟨hnone, hfind⟩
      · exact Or.inl ⟨p, by simp [hp], by simpa [findPageForPosition, h] using hfind, hcont⟩
      · refine Or.inr ⟨?_, by simpa [findPageForPosition, h] using hfind⟩
        intro p hp
        rcases List.mem_cons.mp hp with hp | hp
        · subst hp; exact h
        · exact hnone p hp

/-- C4: `repaginateBook` leaves the book's content, character position
(`currentPosition`), total length and hence the derived progress
`currentPosition / totalLength` unchanged, along with its identity, title
and chapters; only `pages`, `totalPages` and `currentPage` are replaced. -/
theorem c4_repagination_frame (vp : Viewport) (book : Book) (newFontSize : ℚ) :
    (repaginateBook vp book newFontSize).content = book.content ∧
    (repaginateBook vp book newFontSize).currentPosition = book.currentPosition ∧
    (repaginateBook vp book newFontSize).totalLength = book.totalLength ∧
    ((repaginateBook vp book newFontSize).currentPosition : ℚ) /
        ((repaginateBook vp book newFontSize).totalLength : ℚ) =
      (book.currentPosition : ℚ) / (book.totalLength : ℚ) ∧
    (repaginateBook vp book newFontSize).id = book.id ∧
    (repaginateBook vp book newFontSize).title = book.title ∧
    (repaginateBook vp book newFontSize).chapters = book.chapters := by
  unfold repaginateBook
  split <;> simp

/-- C8: for every viewport, content string and positive font size, the
page-size calculator returns an integer budget clamped to `[200, 3000]`.
(The positivity hypothesis keeps the exact-rational model aligned with the
floating-point source, whose divisions are finite for positive font sizes.) -/
theorem c8_budget_clamped (vp : Viewport) (content : List Char) (fontSize : ℚ)
    (_h : 0 < fontSize) :
    200 ≤ getResponsivePageSize vp content fontSize ∧
      getResponsivePageSize vp content fontSize ≤ 3000 := by
  refine ⟨le_max_left _ _, max_le (by norm_num) (min_le_left _ _)⟩

theorem c8_witness :
    (0 : ℚ) < 16 ∧
      (200 ≤ getResponsivePageSize ⟨390, 844, false⟩ "hello".data 16 ∧
        getResponsivePageSize ⟨390, 844, false⟩ "hello".data 16 ≤ 3000) :=
  ⟨by norm_num, c8_budget_clamped ⟨390, 844, false⟩ "hello".data 16 (by norm_num)⟩

/-! ### Structural lemmas about `pagesGo` -/

theorem getLast?_cons_ne {α : Type} (a : α) (l : List α) (h : l ≠ []) :
    (a :: l).getLast? = l.getLast? := by
  cases l with
  | nil => exact absurd rfl h
  | cons b t => exact List.getLast?_cons_cons

theorem pagesGo_length (segs : List (List Char)) :
    ∀ (i : Nat) (pos : Int), (pagesGo i pos segs).length = segs.length := by
  induction segs with
  | nil => intro i pos; rfl
  | cons s rest ih => intro i pos; simp [pagesGo, ih]

theorem pagesGo_ne_nil (segs : List (List Char)) (i : Nat) (pos : Int)
    (h : segs ≠ []) : pagesGo i pos segs ≠ [] := by
  cases segs with
  | nil => exact absurd rfl h
  | cons s rest => simp [pagesGo]

theorem pagesGo_head_start (segs : List (List Char)) (i : Nat) (pos : Int) :
    ∀ p ∈ (pagesGo i pos segs).head?, p.startPosition = pos := by
  cases segs <;> simp [pagesGo]

theorem inclAdjacent_cons (p : BookPage) (l : List BookPage) :
    inclAdjacent (p :: l) = true ↔
      (∀ q ∈ l.head?, q.startPosition = p.endPosition + 1) ∧ inclAdjacent l = true := by
  cases l with
  | nil => simp [inclAdjacent]
  | cons q t =>
    show ((q.startPosition == p.endPosition + 1) && inclAdjacent (q :: t)) = true ↔ _
    simp [Bool.and_eq_true, beq_iff_eq]

theorem sumLen_cons (s : List Char) (l : List (List Char)) :
    sumLen (s :: l) = (s.length : Int) + sumLen l := by
  simp [sumLen]

theorem pagesGo_inclAdjacent (segs : List (List Char)) :
    ∀ (i : Nat) (pos : Int), inclAdjacent (pagesGo i pos segs) = true := by
  induction segs with
  | nil => intro i pos; rfl
  | cons s rest ih =>
    intro i pos
    rw [pagesGo, inclAdjacent_cons]
    refine ⟨?_, ih (i + 1) (pos + s.length)⟩
    intro q hq
    have := pagesGo_head_start rest (i + 1) (pos + s.length) q hq
    simp only [this]
    omega

theorem pagesGo_getLast_end (segs : List (List Char)) :
    ∀ (i : Nat) (pos : Int), segs ≠ [] →
      ∃ q, (pagesGo i pos segs).getLast? = some q ∧
        q.endPosition = pos + sumLen segs - 1 ∧ q.pageNumber = i + segs.length := by
  induction segs with
  | nil => intro i pos h; exact absurd rfl h
  | cons s rest ih =>
    intro i pos _
    cases rest with
    | nil =>
      exact ⟨{ pageNumber := i + 1, content := s, startPosition := pos,
               endPosition := pos + s.length - 1 },
        by simp [pagesGo], by simp [sumLen], by simp⟩
    | cons t r =>
      obtain ⟨q, hq, he, hn⟩ := ih (i + 1) (pos + s.length) (by simp)
      refine ⟨q, ?_, ?_, ?_⟩
      · rw [pagesGo, getLast?_cons_ne _ _ (pagesGo_ne_nil (t :: r) _ _ (by simp))]
        exact hq
      · simp only [he, sumLen_cons]; ring
      · rw [hn]; simp only [List.length_cons]; omega

theorem pagesGo_contents (segs : List (List Char)) :
    ∀ (i : Nat) (pos : Int), (pagesGo i pos segs).map (fun p => p.content) = segs := by
  induction segs with
  | nil => intro i pos; rfl
  | cons s rest ih => intro i pos; simp [pagesGo, ih]

theorem pagesGo_content_sum (segs : List (List Char)) (i : Nat) (pos : Int) :
    ((pagesGo i pos segs).map (fun r => (r.content.length : Int))).sum = sumLen segs := by
  have h := pagesGo_contents segs i pos
  calc ((pagesGo i pos segs).map (fun r => (r.content.length : Int))).sum
      = (((pagesGo i pos segs).map (fun p => p.content)).map
          (fun s => (s.length : Int))).sum := by rw [List.map_map]; rfl
    _ = sumLen segs := by rw [h, sumLen]

theorem segmentTextForPagination_ne_nil (t : List Char) (m : Nat) :
    segmentTextForPagination t m ≠ [] := by
  unfold segmentTextForPagination
  split
  · simp
  · dsimp only
    split
    · simp
    · rename_i hlen
      intro hnil
      rw [hnil] at hlen
      exact hlen rfl

theorem pagesContiguousIncl_of (p : BookPage) (rest : List BookPage)
    (h0 : p.startPosition = 0) (hadj : inclAdjacent (p :: rest) = true)
    (q : BookPage) (hq : (p :: rest).getLast? = some q)
    (hsum : q.endPosition + 1 = ((p :: rest).map fun r => (r.content.length : Int)).sum) :
    pagesContiguousIncl (p :: rest) = true := by
  unfold pagesContiguousIncl
  rw [hq]
  simp [h0, hadj, hsum]

theorem pagesGo_contiguous_zero (segs : List (List Char)) (hne : segs ≠ []) :
    pagesContiguousIncl (pagesGo 0 0 segs) = true := by
  obtain ⟨s, rest, rfl⟩ := List.exists_cons_of_ne_nil hne
  obtain ⟨q, hq, he, -⟩ := pagesGo_getLast_end (s :: rest) 0 0 (by simp)
  have hadj := pagesGo_inclAdjacent (s :: rest) 0 0
  have hsum := pagesGo_content_sum (s :: rest) 0 0
  rw [pagesGo] at hq hadj hsum ⊢
  exact pagesContiguousIncl_of _ _ rfl hadj q hq (by rw [hsum]; omega)

/-- C1 counterexample: on the content `"aa\n \nbb"` with budget `3`, the
produced pages are `[0,1]` and `[2,3]` — the first page's inclusive end does
not equal the second page's start (the source uses inclusive ends), and the
last end is `3`, not `len(C) = 7` (the blank-line separator and trimmed
whitespace are not covered) — so the claimed exact-partition property is
false. -/
theorem c1_counterexample :
    specPartitionExactly "aa\n \nbb".data
      (createPagesWithBudget "aa\n \nbb".data 3) = false := by
  decide

/-- C1 amended: for non-whitespace content and every budget, the produced
pages tile the emitted text contiguously under the source's inclusive-end
convention: the first page starts at offset 0, each later page starts one
character after its predecessor's inclusive end, and the last page's
inclusive end is (total emitted text length) − 1 — which can be smaller than
`len(C) - 1` because paragraph separators and trimmed whitespace are
dropped. -/
theorem c1_amended (content : List Char) (B : Nat)
    (h : (jsTrim content).length ≠ 0) :
    pagesContiguousIncl (createPagesWithBudget content B) = true := by
  simp only [createPagesWithBudget, if_neg h]
  by_cases hshort : (jsTrim content).length ≤ B
  · rw [if_pos hshort]
    exact pagesContiguousIncl_of
      { pageNumber := 1, content := jsTrim content, startPosition := 0,
        endPosition := ((jsTrim content).length : Int) - 1 } [] rfl rfl
      { pageNumber := 1, content := jsTrim content, startPosition := 0,
        endPosition := ((jsTrim content).length : Int) - 1 } (by simp) (by simp)
  · rw [if_neg hshort]
    have hsegs := segmentTextForPagination_ne_nil (jsTrim content) B
    have hlen : ¬((pagesGo 0 0 (segmentTextForPagination (jsTrim content) B)).length = 0) := by
      rw [pagesGo_length]
      exact fun hh => hsegs (List.length_eq_zero.mp hh)
    rw [if_neg hlen]
    exact pagesGo_contiguous_zero _ hsegs

theorem c1_witness :
    (jsTrim "Hello\n\nWorld".data).length ≠ 0 ∧
      pagesContiguousIncl (createPagesWithBudget "Hello\n\nWorld".data 6) = true :=
  ⟨by decide, c1_amended "Hello\n\nWorld".data 6 (by decide)⟩

/-! ### Coverage of the emitted text and `findClosestPage` -/

theorem pagesGo_cover (segs : List (List Char)) :
    ∀ (i : Nat) (pos O : Int), pos ≤ O → O < pos + sumLen segs →
      ∃ p ∈ pagesGo i pos segs, p.startPosition ≤ O ∧ O ≤ p.endPosition := by
  induction segs with
  | nil =>
    intro i pos O h1 h2
    exfalso
    simp [sumLen] at h2
    omega
  | cons s rest ih =>
    intro i pos O h1 h2
    by_cases hc : O ≤ pos + (s.length : Int) - 1
    · rw [pagesGo]
      exact ⟨_, List.mem_cons_self _ _, h1, hc⟩
    · have h1' : pos + (s.length : Int) ≤ O := by omega
      have h2' : O < pos + (s.length : Int) + sumLen rest := by
        rw [sumLen_cons] at h2; omega
      obtain ⟨p, hp, hc1, hc2⟩ := ih (i + 1) (pos + s.length) O h1' h2'
      rw [pagesGo]
      exact ⟨p, List.mem_cons_of_mem _ hp, hc1, hc2⟩

theorem fcpScan_finds (O : Int) (pages : List BookPage)
    (h : ∃ p ∈ pages, p.startPosition ≤ O ∧ O ≤ p.endPosition) :
    ∃ p ∈ pages, fcpScan O pages = some p.pageNumber ∧
      p.startPosition ≤ O ∧ O ≤ p.endPosition := by
  induction pages with
  | nil => simp at h
  | cons page rest ih =>
    by_cases hc : page.startPosition ≤ O ∧ O ≤ page.endPosition
    · exact ⟨page, List.mem_cons_self _ _, by simp [fcpScan, hc], hc⟩
    · obtain ⟨p, hp, hcont⟩ := h
      rcases List.mem_cons.mp hp with rfl | hp'
      · exact absurd hcont hc
      · obtain ⟨p', hp'', hscan, hcont'⟩ := ih ⟨p, hp', hcont⟩
        exact ⟨p', List.mem_cons_of_mem _ hp'', by simp [fcpScan, hc, hscan], hcont'⟩

theorem findClosestPage_finds (O : Int) (pages : List BookPage)
    (h : ∃ p ∈ pages, p.startPosition ≤ O ∧ O ≤ p.endPosition) :
    ∃ p ∈ pages, findClosestPage O pages = p.pageNumber ∧
      p.startPosition ≤ O ∧ O ≤ p.endPosition := by
  obtain ⟨p, hp, hscan, hcont⟩ := fcpScan_finds O pages h
  cases pages with
  | nil => simp at hp
  | cons p0 rest => exact ⟨p, hp, by simp [findClosestPage, hscan], hcont⟩

/-- C3 counterexample: with content `"aa\n \nbb"` and budget `3`, the offset
`5` satisfies `5 < len(C) = 7`, yet `findClosestPage` returns page `2` and no
produced page's range contains `5`: the emitted pages only cover offsets
`0..3` because the blank-line separator is dropped by segmentation, so the
claimed containment fails. -/
theorem c3_counterexample :
    (5 : Int) < (("aa\n \nbb".data).length : Int) ∧
      findClosestPage 5 (createPagesFromContent "aa\n \nbb".data 3) = 2 ∧
      (createPagesFromContent "aa\n \nbb".data 3).all
        (fun p => !(decide (p.startPosition ≤ 5 ∧ 5 ≤ p.endPosition))) = true := by
  decide

/-- C3 amended: resolving an offset `O` against the pages produced by
repagination returns a page whose inclusive range contains `O` whenever
`0 ≤ O` and `O` does not exceed the last produced page's inclusive end
(equivalently, whenever `O` lies inside the emitted text, which can end
before `len(C)` because segmentation drops paragraph separators and trimmed
whitespace); offsets beyond the emitted text instead fall back to the
closest page by start distance. -/
theorem c3_amended (content : List Char) (B : Nat) (O : Int) (h0 : 0 ≤ O)
    (hO : ∀ q, (createPagesFromContent content B).getLast? = some q →
      O ≤ q.endPosition) :
    ∃ p ∈ createPagesFromContent content B,
      findClosestPage O (createPagesFromContent content B) = p.pageNumber ∧
      p.startPosition ≤ O ∧ O ≤ p.endPosition := by
  have hsegs := segmentTextForPagination_ne_nil content B
  have hlen : ¬((pagesGo 0 0 (segmentTextForPagination content B)).length = 0) := by
    rw [pagesGo_length]
    exact fun hh => hsegs (List.length_eq_zero.mp hh)
  simp only [createPagesFromContent, if_neg hlen] at hO ⊢
  apply findClosestPage_finds
  obtain ⟨q, hq, he, -⟩ :=
    pagesGo_getLast_end (segmentTextForPagination content B) 0 0 hsegs
  have hOe := hO q hq
  exact pagesGo_cover (segmentTextForPagination content B) 0 0 O h0 (by omega)

theorem c3_witness :
    ∃ p ∈ createPagesFromContent "ab".data 5,
      findClosestPage 1 (createPagesFromContent "ab".data 5) = p.pageNumber ∧
      p.startPosition ≤ 1 ∧ 1 ≤ p.endPosition :=
  c3_amended "ab".data 5 1 (by decide)
    (by
      intro q hq
      have h : (createPagesFromContent "ab".data 5).getLast? =
          some { pageNumber := 1, content := "ab".data, startPosition := 0,
                 endPosition := 1 } := by decide
      rw [h] at hq
      have h2 := Option.some.inj hq
      rw [← h2])

/-! ### Monotonicity of the narration tracker -/

theorem ttsTick_le (a b : ℚ) : a ≤ ttsTick a b := by
  simp only [ttsTick]
  split
  · rename_i h; exact le_of_lt h
  · exact le_rfl

theorem ttsTick_discard (a b : ℚ) (h : b < a) : ttsTick a b = a := by
  simp only [ttsTick, max_eq_left (le_of_lt h)]
  split
  · rename_i h2
    exact absurd h2 (not_lt.mpr (min_le_right 1 a))
  · rfl

theorem chain'_scanl_le (f : ℚ → ℚ → ℚ) (hf : ∀ a b, a ≤ f a b) :
    ∀ (l : List ℚ) (a : ℚ), List.Chain' (· ≤ ·) (List.scanl f a l) := by
  intro l
  induction l with
  | nil => intro a; simp
  | cons b t ih =>
    intro a
    rw [List.scanl_cons, List.singleton_append]
    refine List.chain'_cons'.mpr ⟨?_, ih (f a b)⟩
    intro y hy
    have hh : (List.scanl f (f a b) t).head? = some (f a b) := by
      cases t <;> simp [List.scanl]
    rw [hh] at hy
    simp only [Option.mem_def, Option.some.injEq] at hy
    rw [← hy]
    exact hf a b

/-- C2: once narration is running, the TTS progress tracker's emitted state
sequence is non-decreasing for every sequence of raw candidate progress
values (however adversarial), the derived character offsets
`Math.floor(progress * totalLength)` are therefore non-decreasing as well,
and a candidate that would decrease the position leaves the state unchanged
(it is discarded — the source logs the blocked tick — rather than applied). -/
theorem c2_monotonic (p0 cand : ℚ) (cands : List ℚ) (L : ℤ) (hL : 0 ≤ L)
    (hdec : cand < p0) :
    List.Chain' (· ≤ ·) (List.scanl ttsTick p0 cands) ∧
    List.Chain' (· ≤ ·)
      ((List.scanl ttsTick p0 cands).map (fun p => ⌊p * (L : ℚ)⌋)) ∧
    ttsTick p0 cand = p0 := by
  refine ⟨chain'_scanl_le ttsTick ttsTick_le cands p0, ?_,
    ttsTick_discard p0 cand hdec⟩
  rw [List.chain'_map]
  exact (chain'_scanl_le ttsTick ttsTick_le cands p0).imp
    (fun a b hab => Int.floor_le_floor
      (mul_le_mul_of_nonneg_right hab (by exact_mod_cast hL)))

theorem c2_witness :
    List.Chain' (· ≤ ·) (List.scanl ttsTick (1/10 : ℚ) [2/10, 15/100, 3/10]) ∧
    List.Chain' (· ≤ ·)
      ((List.scanl ttsTick (1/10 : ℚ) [2/10, 15/100, 3/10]).map
        (fun p => ⌊p * ((1000 : ℤ) : ℚ)⌋)) ∧
    ttsTick (1/10 : ℚ) (5/100) = 1/10 :=
  c2_monotonic (1/10) (5/100) [2/10, 15/100, 3/10] 1000 (by norm_num) (by norm_num)

/-! ### Every emitted segment fits the budget -/

theorem jsTrim_length_le (s : List Char) : (jsTrim s).length ≤ s.length := by
  unfold jsTrim
  rw [List.length_reverse]
  refine le_trans (List.dropWhile_sublist _).length_le ?_
  rw [List.length_reverse]
  exact (List.dropWhile_sublist _).length_le

theorem lastPunctIdx_lt (l : List Char) : ∀ (k : Nat),
    lastPunctIdx l = some k → k < l.length := by
  induction l with
  | nil => intro k h; simp [lastPunctIdx] at h
  | cons c t ih =>
    intro k h
    rw [lastPunctIdx] at h
    split at h
    · rename_i k' hh
      have hk := Option.some.inj h
      have ht := ih k' hh
      simp only [List.length_cons]
      omega
    · split at h
      · have h0 := Option.some.inj h
        simp only [List.length_cons]
        omega
      · exact Option.noConfusion h

theorem blpGo_le (m : Nat) (hm : 1 ≤ m) :
    ∀ (rest : List Char) (skip : Nat) (current : List Char),
      current.length < m → ∀ s ∈ blpGo m skip current rest, s.length ≤ m := by
  intro rest
  induction rest with
  | nil =>
    intro skip current hc s hs
    rw [blpGo] at hs
    split at hs
    · simp only [List.mem_singleton] at hs
      subst hs
      exact le_trans (jsTrim_length_le _) (le_of_lt hc)
    · simp at hs
  | cons c rest ih =>
    intro skip current hc s hs
    match skip with
    | skip' + 1 =>
      rw [blpGo] at hs
      exact ih skip' current hc s hs
    | 0 =>
      rw [blpGo] at hs
      have hlen1 : (current ++ [c]).length = current.length + 1 := by simp
      by_cases hthr : 4 * m ≤ 5 * (current ++ [c]).length
      · rw [if_pos hthr] at hs
        cases hk : lastPunctIdx (rest.take (m - (current ++ [c]).length - 1)) with
        | some k =>
          rw [hk] at hs
          rcases List.mem_cons.mp hs with rfl | hs'
          · have hkw := lastPunctIdx_lt _ k hk
            have hwin : k < m - (current ++ [c]).length - 1 :=
              lt_of_lt_of_le hkw (List.length_take_le _ _)
            refine le_trans (jsTrim_length_le _) ?_
            have htake : (rest.take (k + 1)).length ≤ k + 1 := List.length_take_le _ _
            simp only [List.length_append, hlen1]
            omega
          · exact ih (k + 1) [] (by simp only [List.length_nil]; omega) s hs'
        | none =>
          rw [hk] at hs
          by_cases hhard : m ≤ (current ++ [c]).length
          · rw [if_pos hhard] at hs
            rcases List.mem_cons.mp hs with rfl | hs'
            · exact le_trans (jsTrim_length_le _) (by omega)
            · exact ih 0 [] (by simp only [List.length_nil]; omega) s hs'
          · rw [if_neg hhard] at hs
            exact ih 0 (current ++ [c]) (by omega) s hs
      · rw [if_neg hthr] at hs
        by_cases hhard : m ≤ (current ++ [c]).length
        · rw [if_pos hhard] at hs
          rcases List.mem_cons.mp hs with rfl | hs'
          · exact le_trans (jsTrim_length_le _) (by omega)
          · exact ih 0 [] (by simp only [List.length_nil]; omega) s hs'
        · rw [if_neg hhard] at hs
          exact ih 0 (current ++ [c]) (by omega) s hs

theorem breakLongParagraph_le (p : List Char) (m : Nat) (hm : 1 ≤ m) :
    ∀ s ∈ breakLongParagraph p m, s.length ≤ m := by
  intro s hs
  rw [breakLongParagraph] at hs
  exact blpGo_le m hm p 0 [] (by simp only [List.length_nil]; omega) s hs

theorem segLoop_le (m : Nat) (hm : 1 ≤ m) :
    ∀ (paras : List (List Char)) (cur : List Char) (segs : List (List Char)),
      cur.length ≤ m → (∀ s ∈ segs, s.length ≤ m) →
      ∀ s ∈ segLoop m paras cur segs, s.length ≤ m := by
  intro paras
  induction paras with
  | nil =>
    intro cur segs hcur hsegs s hs
    rw [segLoop] at hs
    split at hs
    · rcases List.mem_append.mp hs with hs' | hs'
      · exact hsegs s hs'
      · simp only [List.mem_singleton] at hs'
        subst hs'
        exact hcur
    · exact hsegs s hs
  | cons p rest ih =>
    intro cur segs hcur hsegs s hs
    rw [segLoop] at hs
    simp only at hs
    by_cases h0 : (jsTrim p).length = 0
    · rw [if_pos h0] at hs
      exact ih cur segs hcur hsegs s hs
    · rw [if_neg h0] at hs
      by_cases hpot :
          (cur ++ (if cur.length = 0 then [] else ['\n', '\n']) ++ jsTrim p).length ≤ m
      · rw [if_pos hpot] at hs
        exact ih _ segs hpot hsegs s hs
      · rw [if_neg hpot] at hs
        have hsegs1 : ∀ s' ∈ (if 0 < cur.length then segs ++ [cur] else segs),
            s'.length ≤ m := by
          split
          · intro s' hs'
            rcases List.mem_append.mp hs' with h | h
            · exact hsegs s' h
            · simp only [List.mem_singleton] at h
              subst h
              exact hcur
          · exact hsegs
        by_cases hlong : m < (jsTrim p).length
        · rw [if_pos hlong] at hs
          refine ih [] _ (by simp only [List.length_nil]; omega) ?_ s hs
          intro s' hs'
          rcases List.mem_append.mp hs' with h | h
          · exact hsegs1 s' h
          · exact breakLongParagraph_le (jsTrim p) m hm s' h
        · rw [if_neg hlong] at hs
          exact ih (jsTrim p) _ (by omega) hsegs1 s hs

/-- C9: for every content string and every budget `B ≥ 1`, every segment
emitted by `segmentTextForPagination` has length at most `B`: no produced
page's text exceeds the character budget. -/
theorem c9_segments_within_budget (text : List Char) (B : Nat) (hB : 1 ≤ B) :
    ∀ s ∈ segmentTextForPagination text B, s.length ≤ B := by
  intro s hs
  unfold segmentTextForPagination at hs
  split at hs
  · simp only [List.mem_singleton] at hs
    subst hs
    simp
  · dsimp only at hs
    split at hs
    · simp only [List.mem_singleton] at hs
      subst hs
      simp
    · exact segLoop_le B hB (splitParas (jsTrim text)) [] []
        (by simp only [List.length_nil]; omega) (by simp) s hs

theorem c9_witness :
    1 ≤ 1 ∧ ∀ s ∈ segmentTextForPagination "ab".data 1, s.length ≤ 1 :=
  ⟨le_refl 1, c9_segments_within_budget "ab".data 1 (le_refl 1)⟩

/-! ### Chapter fallback -/

theorem detectChaptersGo_nil (content : List Char) (pages : List BookPage) :
    ∀ (lines : List (List Char)) (n : Nat),
      (∀ l ∈ lines, chapterLineTitleRaw (jsTrim l) = none) →
      detectChaptersGo content pages n lines = [] := by
  intro lines
  induction lines with
  | nil => intro n _; rfl
  | cons l rest ih =>
    intro n h
    have htail := fun l' hl' => h l' (List.mem_cons_of_mem _ hl')
    by_cases h0 : (jsTrim l).length = 0
    · simp only [detectChaptersGo, if_pos h0]
      exact ih n htail
    · simp only [detectChaptersGo, if_neg h0, h l (List.mem_cons_self _ _)]
      exact ih n htail

/-- C7: whenever no line of the content matches any chapter heading pattern,
`detectChapters` returns exactly one synthetic chapter
`{id: "chapter-1", title: "Chapter 1", startPage: 1, startPosition: 0}` whose
`endPage` is the page count — which equals the final page's page number,
since the parser numbers pages `1..N`. -/
theorem c7_chapter_fallback (content : List Char) (B : Nat)
    (h : ∀ l ∈ splitLines content, chapterLineTitleRaw (jsTrim l) = none) :
    detectChapters content (createPagesWithBudget content B) =
      [{ id := "chapter-1".data, title := "Chapter 1".data, startPage := 1,
         endPage := some (createPagesWithBudget content B).length,
         startPosition := 0 }] ∧
    ∀ q, (createPagesWithBudget content B).getLast? = some q →
      q.pageNumber = (createPagesWithBudget content B).length := by
  constructor
  · simp only [detectChapters,
      detectChaptersGo_nil content (createPagesWithBudget content B)
        (splitLines content) 0 h]
    simp [setEndPages]
  · intro q hq
    by_cases h0 : (jsTrim content).length = 0
    · simp only [createPagesWithBudget, if_pos h0] at hq ⊢
      simp only [List.getLast?_singleton, Option.some.injEq] at hq
      rw [← hq]
      rfl
    · simp only [createPagesWithBudget, if_neg h0] at hq ⊢
      by_cases hshort : (jsTrim content).length ≤ B
      · rw [if_pos hshort] at hq ⊢
        simp only [List.getLast?_singleton, Option.some.injEq] at hq
        rw [← hq]
        rfl
      · rw [if_neg hshort] at hq ⊢
        have hsegs := segmentTextForPagination_ne_nil (jsTrim content) B
        have hlen :
            ¬((pagesGo 0 0 (segmentTextForPagination (jsTrim content) B)).length = 0) := by
          rw [pagesGo_length]
          exact fun hh => hsegs (List.length_eq_zero.mp hh)
        rw [if_neg hlen] at hq ⊢
        obtain ⟨q', hq', -, hn'⟩ :=
          pagesGo_getLast_end (segmentTextForPagination (jsTrim content) B) 0 0 hsegs
        rw [hq'] at hq
        have hqq := Option.some.inj hq
        rw [← hqq, hn', pagesGo_length]
        omega

theorem c7_witness :
    detectChapters "hello world\nfoo".data
        (createPagesWithBudget "hello world\nfoo".data 5) =
      [{ id := "chapter-1".data, title := "Chapter 1".data, startPage := 1,
         endPage := some (createPagesWithBudget "hello world\nfoo".data 5).length,
         startPosition := 0 }] ∧
    ∀ q, (createPagesWithBudget "hello world\nfoo".data 5).getLast? = some q →
      q.pageNumber = (createPagesWithBudget "hello world\nfoo".data 5).length :=
  c7_chapter_fallback "hello world\nfoo".data 5 (by decide)

/-! ### The long-paragraph break point -/

theorem lastPunctIdx_none_no_punct (l : List Char) (h : lastPunctIdx l = none) :
    ∀ (j : Nat) (hj : j < l.length), isBreakPunct (l.get ⟨j, hj⟩) = false := by
  induction l with
  | nil => intro j hj; exact absurd hj (by simp)
  | cons c t ih =>
    intro j hj
    rw [lastPunctIdx] at h
    split at h
    · exact Option.noConfusion h
    · rename_i hh
      split at h
      · exact Option.noConfusion h
      · rename_i hc
        cases j with
        | zero => simpa using Bool.eq_false_iff.mpr hc
        | succ j' =>
          have := ih hh j' (by simpa using hj)
          simpa [List.get_cons_succ] using this

theorem lastPunctIdx_is_last (l : List Char) : ∀ (k : Nat),
    lastPunctIdx l = some k →
      (∃ hk : k < l.length, isBreakPunct (l.get ⟨k, hk⟩) = true) ∧
      ∀ (j : Nat) (hj : j < l.length), k < j →
        isBreakPunct (l.get ⟨j, hj⟩) = false := by
  induction l with
  | nil => intro k h; simp [lastPunctIdx] at h
  | cons c t ih =>
    intro k h
    rw [lastPunctIdx] at h
    split at h
    · rename_i k' hh
      have hk := Option.some.inj h
      subst hk
      obtain ⟨⟨hklt, hpunct⟩, hafter⟩ := ih k' hh
      refine ⟨⟨by simpa using Nat.succ_lt_succ hklt, ?_⟩, ?_⟩
      · simpa [List.get_cons_succ] using hpunct
      · intro j hj hlt
        cases j with
        | zero => omega
        | succ j' =>
          have := hafter j' (by simpa using hj) (by omega)
          simpa [List.get_cons_succ] using this
    · rename_i hh
      split at h
      · rename_i hc
        have h0 := Option.some.inj h
        subst h0
        refine ⟨⟨by simp, by simpa using hc⟩, ?_⟩
        intro j hj hlt
        cases j with
        | zero => omega
        | succ j' =>
          have := lastPunctIdx_none_no_punct t hh j' (by simpa using hj)
          simpa [List.get_cons_succ] using this
      · exact Option.noConfusion h

/-- C5 counterexample: on the 26-character paragraph below with budget 20,
the look-ahead window after the threshold contains a period at window index 0
and a comma at window index 2; the source breaks after the comma (the
farthest punctuation, because the scan keeps overwriting `breakPoint`),
whereas breaking at the nearest punctuation — as the claim states — would end
the first chunk at the period. -/
theorem c5_counterexample :
    breakLongParagraph "aaaaaaaaaaaaaaaa.a,bbbbbbb".data 20 =
        ["aaaaaaaaaaaaaaaa.a,".data, "bbbbbbb".data] ∧
      specBreakLongParagraph "aaaaaaaaaaaaaaaa.a,bbbbbbb".data 20 =
        ["aaaaaaaaaaaaaaaa.".data, "a,bbbbbbb".data] ∧
      breakLongParagraph "aaaaaaaaaaaaaaaa.a,bbbbbbb".data 20 ≠
        specBreakLongParagraph "aaaaaaaaaaaaaaaa.a,bbbbbbb".data 20 := by
  refine ⟨by decide, by decide, by decide⟩

/-- C5 amended: once the accumulated chunk reaches ~80% of the budget
(`current.length >= maxChars * 0.8`), the breaker looks ahead over the
remaining allowance and breaks inclusively at the FARTHEST sentence-ending
punctuation in that window (Latin `.!?;:,` or CJK `。！？；：，、`) — the scan
keeps overwriting the break point, so the chosen index is punctuation and no
punctuation follows it inside the window; if the window holds no punctuation
and the hard character limit is reached, it breaks exactly at the hard
limit. -/
theorem c5_amended_farthest_break (m : Nat) (cur : List Char) (c : Char)
    (rest : List Char) (k : Nat)
    (hthr : 4 * m ≤ 5 * (cur ++ [c]).length) :
    (lastPunctIdx (rest.take (m - (cur ++ [c]).length - 1)) = some k →
      blpGo m 0 cur (c :: rest) =
        jsTrim ((cur ++ [c]) ++ rest.take (k + 1)) :: blpGo m (k + 1) [] rest ∧
      (∃ hk : k < rest.length, isBreakPunct (rest.get ⟨k, hk⟩) = true) ∧
      (∀ (j : Nat) (hj : j < rest.length), k < j →
        j < m - (cur ++ [c]).length - 1 → isBreakPunct (rest.get ⟨j, hj⟩) = false)) ∧
    (lastPunctIdx (rest.take (m - (cur ++ [c]).length - 1)) = none →
      m ≤ (cur ++ [c]).length →
      blpGo m 0 cur (c :: rest) = jsTrim (cur ++ [c]) :: blpGo m 0 [] rest) := by
  constructor
  · intro hk
    obtain ⟨⟨hklt, hpunct⟩, hafter⟩ := lastPunctIdx_is_last _ k hk
    refine ⟨?_, ?_, ?_⟩
    · rw [blpGo]
      simp only [if_pos hthr, hk]
    · have hkr : k < rest.length :=
        lt_of_lt_of_le hklt (by rw [List.length_take]; exact min_le_right _ _)
      refine ⟨hkr, ?_⟩
      have hg : (rest.take (m - (cur ++ [c]).length - 1)).get ⟨k, hklt⟩ =
          rest.get ⟨k, hkr⟩ := by
        simp [List.getElem_take]
      rw [← hg]
      exact hpunct
    · intro j hj hltk hjw
      have hjw' : j < (rest.take (m - (cur ++ [c]).length - 1)).length := by
        rw [List.length_take]
        omega
      have hres := hafter j hjw' hltk
      have hg : (rest.take (m - (cur ++ [c]).length - 1)).get ⟨j, hjw'⟩ =
          rest.get ⟨j, hj⟩ := by
        simp [List.getElem_take]
      rw [← hg]
      exact hres
  · intro hnone hhard
    rw [blpGo]
    simp only [if_pos hthr, hnone, if_pos hhard]

theorem c5_witness :
    4 * 20 ≤ 5 * (("aaaaaaaaaaaaaaa".data ++ ['a']).length) ∧
      ((lastPunctIdx ((".a,bbbbbbb".data).take
          (20 - ("aaaaaaaaaaaaaaa".data ++ ['a']).length - 1)) = some 2 →
        blpGo 20 0 "aaaaaaaaaaaaaaa".data ('a' :: ".a,bbbbbbb".data) =
          jsTrim (("aaaaaaaaaaaaaaa".data ++ ['a']) ++ (".a,bbbbbbb".data).take 3) ::
            blpGo 20 3 [] ".a,bbbbbbb".data ∧
        (∃ hk : 2 < (".a,bbbbbbb".data).length,
          isBreakPunct ((".a,bbbbbbb".data).get ⟨2, hk⟩) = true) ∧
        (∀ (j : Nat) (hj : j < (".a,bbbbbbb".data).length), 2 < j →
          j < 20 - ("aaaaaaaaaaaaaaa".data ++ ['a']).length - 1 →
          isBreakPunct ((".a,bbbbbbb".data).get ⟨j, hj⟩) = false)) ∧
      (lastPunctIdx ((".a,bbbbbbb".data).take
          (20 - ("aaaaaaaaaaaaaaa".data ++ ['a']).length - 1)) = none →
        20 ≤ ("aaaaaaaaaaaaaaa".data ++ ['a']).length →
        blpGo 20 0 "aaaaaaaaaaaaaaa".data ('a' :: ".a,bbbbbbb".data) =
          jsTrim ("aaaaaaaaaaaaaaa".data ++ ['a']) :: blpGo 20 0 [] ".a,bbbbbbb".data)) :=
  ⟨by decide,
    c5_amended_farthest_break 20 "aaaaaaaaaaaaaaa".data 'a' ".a,bbbbbbb".data 2
      (by decide)⟩
